import Mathlib

set_option maxHeartbeats 1000000

/-! Shallow embedding of the titan2 EEG derived-metrics core and proofs
about it.

Python floats are modelled as exact rationals; a value that may be NaN or
infinite is modelled by the `EV` type below, and a pandas/numpy value that may
be missing (NaN) in a homogeneous numeric column is modelled as `Option ℚ`
(`none` = NaN).  Each definition mirrors one function or code block of the
repository, named in its doc comment.
-/

namespace Titan2

/-- A Python float that may be NaN or infinite: used where the source code can
receive such values (indicator inputs of `calculate_meditation_score`). -/
inductive EV where
  | nan : EV
  | pinf : EV
  | ninf : EV
  | fin : ℚ → EV
deriving DecidableEq

/-- Models `np.isclose(a, b)` with the default tolerances `rtol=1e-5`, `atol=1e-8`:
`|a - b| <= atol + rtol * |b|`. -/
def npIsClose (a b : ℚ) : Bool :=
  decide (|a - b| ≤ 1/100000000 + (1/100000) * |b|)

/-- Models `np.clip(x, lo, hi)` on finite operands: `min (max x lo) hi`. -/
def npClip (x lo hi : ℚ) : ℚ := min (max x lo) hi

/-- Models `np.clip(value, min_val, max_val)` for a possibly infinite `value` and
finite bounds.  `+inf` clips to `hi`, `-inf` clips to `min lo hi`, exactly as
`min (max x lo) hi` evaluates in IEEE arithmetic.  The `nan` case is
unreachable in `normalizeIndicator` (guarded by the `pd.isna` check); the
value returned for it is irrelevant. -/
def evClip (v : EV) (lo hi : ℚ) : ℚ :=
  match v with
  | EV.nan => 0
  | EV.pinf => hi
  | EV.ninf => min lo hi
  | EV.fin q => npClip q lo hi

/-- The function `_normalize_indicator(value, min_val, max_val, reverse)` from
`src/lib/segment_analysis.py` (lines 541-582): NaN maps to 0.5; otherwise the
value is clipped into the reference range, mapped to 0.5 when
`np.isclose(max_val, min_val)`, else linearly rescaled by
`(clipped - min_val) / (max_val - min_val)`; the `reverse` flag replaces the
result by `1 - result`. -/
def normalizeIndicator (value : EV) (min_val max_val : ℚ) (reverse : Bool) : ℚ :=
  if value = EV.nan then 1/2
  else
    let clipped := evClip value min_val max_val
    let normalized :=
      if npIsClose max_val min_val then (1 : ℚ)/2
      else (clipped - min_val) / (max_val - min_val)
    if reverse then 1 - normalized else normalized

/-- The fixed indicator vocabulary of `calculate_meditation_score`.  The
constructors correspond to the Python dict keys
`fmtheta`, `spectral_entropy`, `theta_alpha_ratio`, `faa`,
`alpha_beta_ratio`, `iaf_stability`, `quality`. -/
inductive Key where
  | fmtheta
  | spectralEntropy
  | thetaAlpha
  | faa
  | alphaBeta
  | iafStability
  | quality
deriving DecidableEq

/-- Python dict lookup on an association list keyed by the indicator
vocabulary (first match wins, as dict keys are unique). -/
def dictLookup (k : Key) : List (Key × ℚ) → Option ℚ
  | [] => none
  | p :: rest => if p.1 = k then some p.2 else dictLookup k rest

/-- The constant `MEDITATION_SCORE_WEIGHTS` from `src/lib/segment_analysis.py` (lines
36-42): fmtheta 0.3125, spectral_entropy 0.25, theta_alpha_ratio 0.1875,
alpha_beta_ratio 0.125, iaf_stability 0.125. -/
def MEDITATION_SCORE_WEIGHTS : List (Key × ℚ) :=
  [(Key.fmtheta, 5/16), (Key.spectralEntropy, 1/4), (Key.thetaAlpha, 3/16),
   (Key.alphaBeta, 1/8), (Key.iafStability, 1/8)]

/-- One branch of the per-indicator scoring in `calculate_meditation_score`:
`None` inputs score the neutral 0.5, otherwise `_normalize_indicator` is
applied with the indicator's static reference range. -/
def scoreOf (x : Option EV) (lo hi : ℚ) (rev : Bool) : ℚ :=
  match x with
  | none => 1/2
  | some v => normalizeIndicator v lo hi rev

/-- The `scores` dict built by `calculate_meditation_score`
(`src/lib/segment_analysis.py` lines 630-683), in insertion order, with the
reference ranges hard-coded there: fmtheta (50, 200), spectral_entropy
(0.7, 1.0, reversed), theta_alpha_ratio (-1, 1), faa (-0.5, 0.5),
alpha_beta_ratio (1, 10), iaf_cv (0, 0.05, reversed),
hsi_quality (1, 4, reversed). -/
def meditationScores (fm se ta fa ab ic hq : Option EV) : List (Key × ℚ) :=
  [ (Key.fmtheta, scoreOf fm 50 200 false),
    (Key.spectralEntropy, scoreOf se (7/10) 1 true),
    (Key.thetaAlpha, scoreOf ta (-1) 1 false),
    (Key.faa, scoreOf fa (-(1:ℚ)/2) (1/2) false),
    (Key.alphaBeta, scoreOf ab 1 10 false),
    (Key.iafStability, scoreOf ic 0 (1/20) true),
    (Key.quality, scoreOf hq 1 4 true) ]

/-- Result record of `calculate_meditation_score`. -/
structure ScoreResult where
  total_score : ℚ
  level : String
  scores : List (Key × ℚ)
  weights : List (Key × ℚ)
deriving DecidableEq

/-- The function `calculate_meditation_score` from `src/lib/segment_analysis.py` (lines
585-704).  Weight maps are keyed by the indicator vocabulary (the documented
caller contract of the composite scorer).  The total is
`sum(scores[key] * weights[key] for key in weights.keys() if key in scores)`
scaled by 100; the qualitative level uses the fixed 80/65/50 thresholds. -/
def calculate_meditation_score (fm se ta fa ab ic hq : Option EV)
    (weights : Option (List (Key × ℚ))) : ScoreResult :=
  let w := weights.getD MEDITATION_SCORE_WEIGHTS
  let scores := meditationScores fm se ta fa ab ic hq
  let total := (w.map (fun p =>
    match dictLookup p.1 scores with
    | some s => s * p.2
    | none => 0)).sum
  let t100 := total * 100
  { total_score := t100
    level :=
      if 80 ≤ t100 then "excellent"
      else if 65 ≤ t100 then "good"
      else if 50 ≤ t100 then "fair"
      else "needs improvement"
    scores := scores
    weights := w }

/-- The theta/alpha log-domain ratio of one segment (segment_analysis.py lines
331-334): `theta_mean - alpha_mean` when both are present (`pd.notna`), NaN
otherwise. -/
def thetaAlphaLogOf (alphaMean thetaMean : Option ℚ) : Option ℚ :=
  match alphaMean, thetaMean with
  | some a, some t => some (t - a)
  | _, _ => none

/-- The alpha/beta log-domain ratio of one segment (segment_analysis.py lines
336-339): `alpha_mean - beta_mean` when both are present, NaN otherwise. -/
def alphaBetaLogOf (alphaMean betaMean : Option ℚ) : Option ℚ :=
  match alphaMean, betaMean with
  | some a, some b => some (a - b)
  | _, _ => none

/-- Models `10 ** x` on a finite float, as a real number. -/
noncomputable def tenPow (q : ℚ) : ℝ := (10 : ℝ) ^ (q : ℝ)

/-- The alpha/beta linear-domain ratio of one segment (segment_analysis.py
lines 340-343): `10 ** alpha_beta_ratio_log` when the log value is present,
NaN otherwise (`10 ** NaN` is NaN). -/
noncomputable def alphaBetaLinOf (alphaMean betaMean : Option ℚ) : Option ℝ :=
  (alphaBetaLogOf alphaMean betaMean).map tenPow

/-- One entry of the elementwise Bels-difference columns of
create_statistical_dataframe (statistical_dataframe.py lines 141-161), e.g.
`alpha_beta_bels = Alpha - Beta`: pandas subtraction propagates NaN. -/
def belsDiff (num den : Option ℚ) : Option ℚ :=
  match num, den with
  | some a, some b => some (a - b)
  | _, _ => none

/-- One entry of the linear ratio columns of create_statistical_dataframe,
e.g. `alpha_beta = 10 ** alpha_beta_bels`: NaN propagates through `**`. -/
noncomputable def linearFromBels (x : Option ℚ) : Option ℝ := x.map tenPow

/-- One time segment as recorded by calculate_segment_analysis: a 1-based
index, the window start, and the window end `start + segment_minutes`
(`stop` here; `segment_end` in the source). -/
structure Segment where
  idx : ℕ
  start : ℚ
  stop : ℚ
deriving DecidableEq

/-- The segment-start loop of calculate_segment_analysis (segment_analysis.py
lines 280-284): `current = session_start; while current < session_end:
append(current); current += segment_delta`. -/
def segmentStartsFrom (sessionEnd delta : ℚ) (hd : 0 < delta) (current : ℚ) :
    List ℚ :=
  if current < sessionEnd then
    current :: segmentStartsFrom sessionEnd delta hd (current + delta)
  else []
termination_by (⌈(sessionEnd - current) / delta⌉).toNat
decreasing_by
  rename_i h
  have hd0 : delta ≠ 0 := ne_of_gt hd
  have h1 : (0:ℚ) < (sessionEnd - current) / delta := div_pos (by linarith) hd
  have h2 : (sessionEnd - (current + delta)) / delta
      = (sessionEnd - current) / delta - 1 := by
    field_simp
    ring
  have h3 : ⌈(sessionEnd - (current + delta)) / delta⌉
      = ⌈(sessionEnd - current) / delta⌉ - 1 := by
    rw [h2, Int.ceil_sub_one]
  have h4 : 0 < ⌈(sessionEnd - current) / delta⌉ := Int.ceil_pos.mpr h1
  simp only [h3]
  omega

/-- The segmentation skeleton of calculate_segment_analysis
(segment_analysis.py lines 214-233, 278-292, 374-385), DataFrame-based path:
the raised `ValueError`s become `Except.error`; `timestamps` is the cleaned
TimeStamp column (sorted inside, as `sort_values` does); the session start is
the first timestamp plus the warm-up, the session end is the last timestamp;
rows before the warm-up are dropped and an error is raised if none remain;
segment starts step by `segment_minutes` while strictly before the session
end (falling back to a single start when the loop produces none), and each
recorded segment ends at `start + segment_minutes`. -/
def segmentAnalysis (timestamps : List ℚ) (segmentMinutes warmupMinutes : ℚ) :
    Except String (List Segment) :=
  if hpos : segmentMinutes ≤ 0 then Except.error "segment_minutes must be positive"
  else
    let ts := List.insertionSort (· ≤ ·) timestamps
    if ts = [] then Except.error "no timestamps"
    else
      let sessionStart := ts.headD 0 + warmupMinutes
      let sessionEnd := ts.getLastD 0
      if ts.filter (fun t => sessionStart ≤ t) = [] then
        Except.error "no data after warmup"
      else
        let starts0 := segmentStartsFrom sessionEnd segmentMinutes
          (not_le.mp hpos) sessionStart
        let starts := if starts0 = [] then [sessionStart] else starts0
        Except.ok ((List.enumFrom 1 starts).map
          (fun p => { idx := p.1, start := p.2, stop := p.2 + segmentMinutes }))

/-- The warm-up guard of create_statistical_dataframe
(statistical_dataframe.py lines 74-79) and of
_calculate_band_power_from_epochs (segment_analysis.py lines 103-108):
`tmin_sec = warmup_minutes * 60; tmax_sec = data length in seconds;
if tmin_sec >= tmax_sec: raise`. -/
def statWarmupGuard (dataSeconds warmupMinutes : ℚ) : Except String Unit :=
  if dataSeconds ≤ warmupMinutes * 60 then Except.error "warmup exceeds data length"
  else Except.ok ()

/-- pandas `Series.dropna()` on a numeric column with missing entries. -/
def dropna (xs : List (Option ℚ)) : List ℚ := xs.filterMap id

/-- pandas `Series.mean()`: NaN (`none`) on an empty series. -/
def listMean (xs : List ℚ) : Option ℚ :=
  if xs = [] then none else some (xs.sum / xs.length)

/-- The mean of a list as a plain rational (0 on the empty list, which every
caller below guards against). -/
def pMean (xs : List ℚ) : ℚ := xs.sum / xs.length

/-- Population variance (ddof = 0), the square of the standard deviation used
by `scipy.stats.zscore`. -/
def popVar (xs : List ℚ) : ℚ :=
  ((xs.map (fun x => (x - pMean xs)^2)).sum) / xs.length

/-- Models `values[np.abs(stats.zscore(values)) < 3.0]`: scipy zscore is
`(x - mean) / std` with population std; `|z| < 3` is equivalent to
`(x - mean)^2 < 9 * variance` when the variance is positive, and when the
variance is zero every z-score is NaN (0/0), every `NaN < 3` comparison is
False, and every value is dropped. -/
def zscoreFilter (xs : List ℚ) : List ℚ :=
  if popVar xs = 0 then []
  else xs.filter (fun x => (x - pMean xs)^2 < 9 * popVar xs)

/-- The Fmθ per-segment mean of calculate_segment_analysis
(segment_analysis.py lines 312-320): drop NaN; with more than 3 values filter
by `|z| < 3` and take the filtered mean, falling back to the unfiltered mean
when the filter removes everything; with 3 or fewer values take the raw mean
(NaN when empty). -/
def fmSegmentMean (fmSlice : List (Option ℚ)) : Option ℚ :=
  let clean := dropna fmSlice
  if 3 < clean.length then
    let filtered := zscoreFilter clean
    if 0 < filtered.length then listMean filtered else listMean clean
  else
    if 0 < clean.length then listMean clean else none

/-- The value list fed to the summary statistics of
create_statistical_dataframe (statistical_dataframe.py lines 170-181 and
218-228): after dropna, when more than 3 values remain the `|z| < 3` filter
is applied and kept only if it leaves at least one value. -/
def statOutlierValues (values : List ℚ) : List ℚ :=
  if 3 < values.length then
    let filtered := zscoreFilter values
    if 0 < filtered.length then filtered else values
  else values

/-- The value list fed to the ratio summary statistics of
calculate_band_ratios (src/lib/sensors/eeg/ratios.py lines 70-95): whenever
at least one value is present the `|z| < 3` filter is applied unconditionally
(no minimum-count guard); when it removes everything the statistics row is
all-NaN (`none` here). -/
def ratiosStatsValues (values : List ℚ) : Option (List ℚ) :=
  if values = [] then none
  else
    let filtered := zscoreFilter values
    if 0 < filtered.length then some filtered else none

/-- The Mean entry of the calculate_band_ratios statistics table. -/
def ratiosStatsMean (values : List ℚ) : Option ℚ :=
  (ratiosStatsValues values).bind listMean

/-- The fmax cap of create_statistical_dataframe (statistical_dataframe.py
lines 103-105) and _calculate_band_power_from_epochs (segment_analysis.py
lines 133-135): `nyquist = sfreq / 2; fmax = min(50.0, nyquist * 0.95)`. -/
def epochsFmax (sfreq : ℚ) : ℚ :=
  let nyquist := sfreq / 2
  min 50 (nyquist * (19/20))

/-- The fmax cap of calculate_psd (src/lib/sensors/eeg/frequency.py lines
39-41): `nyquist = sfreq / 2;
fmax = min(fmax, max(nyquist - 1e-6, nyquist * 0.9))`. -/
def psdFmax (sfreq fmax : ℚ) : ℚ :=
  let nyquist := sfreq / 2
  min fmax (max (nyquist - 1/1000000) (nyquist * (9/10)))

/-- pandas `Series.quantile(q)` with the default linear interpolation: with
the values sorted ascending and `h = (n-1)*q`, the result is
`x[floor h] + (h - floor h) * (x[ceil h] - x[floor h])`.  (pandas returns NaN
on an empty series; the 0 returned here for that case is never used — the
envelope series the source applies it to is nonempty.) -/
def pandasQuantile (xs : List ℚ) (q : ℚ) : ℚ :=
  let s := List.insertionSort (· ≤ ·) xs
  let n := s.length
  let h : ℚ := ((n : ℚ) - 1) * q
  let lo : ℤ := ⌊h⌋
  let hi : ℤ := ⌈h⌉
  let xlo := s.getD lo.toNat 0
  let xhi := s.getD hi.toNat 0
  xlo + (h - (lo : ℚ)) * (xhi - xlo)

/-- The envelope clipping step of calculate_frontal_theta
(src/lib/sensors/eeg/frontal_theta.py lines 130-136):
`power_series.clip(lower=0.0, upper=power_series.quantile(0.90))`, applied
elementwise without discarding samples, before the resampling and the two
rolling smoothing passes. -/
def envelopeClip (xs : List ℚ) : List ℚ :=
  let upper := pandasQuantile xs (9/10)
  xs.map (fun x => npClip x 0 upper)

/-- Helper: the per-indicator score as a function of the key (same values as
the entries of `meditationScores`). -/
def scoreAt (fm se ta fa ab ic hq : Option EV) : Key → ℚ
  | Key.fmtheta => scoreOf fm 50 200 false
  | Key.spectralEntropy => scoreOf se (7/10) 1 true
  | Key.thetaAlpha => scoreOf ta (-1) 1 false
  | Key.faa => scoreOf fa (-(1:ℚ)/2) (1/2) false
  | Key.alphaBeta => scoreOf ab 1 10 false
  | Key.iafStability => scoreOf ic 0 (1/20) true
  | Key.quality => scoreOf hq 1 4 true

theorem dictLookup_meditationScores (fm se ta fa ab ic hq : Option EV) (k : Key) :
    dictLookup k (meditationScores fm se ta fa ab ic hq)
      = some (scoreAt fm se ta fa ab ic hq k) := by
  cases k <;> rfl

theorem total_score_some (fm se ta fa ab ic hq : Option EV) (w : List (Key × ℚ)) :
    (calculate_meditation_score fm se ta fa ab ic hq (some w)).total_score
      = (w.map (fun p => scoreAt fm se ta fa ab ic hq p.1 * p.2)).sum * 100 := by
  simp only [calculate_meditation_score, Option.getD_some, dictLookup_meditationScores]

theorem scoreAt_none (k : Key) :
    scoreAt none none none none none none none k = 1/2 := by
  cases k <;> rfl

theorem sum_map_const_mul (c : ℚ) (l : List (Key × ℚ)) :
    (l.map (fun p => c * p.2)).sum = c * (l.map Prod.snd).sum := by
  induction l with
  | nil => simp
  | cons a l ih => simp [ih]; ring

/-- C1: for every weight map (keyed by the indicator vocabulary) whose values
sum to 1, the composite scorer with all indicator inputs absent (hence every
per-indicator normalized value equal to 0.5) yields `total_score` exactly 50. -/
theorem composite_neutral_total (w : List (Key × ℚ))
    (hsum : (w.map Prod.snd).sum = 1) :
    (calculate_meditation_score none none none none none none none
      (some w)).total_score = 50 := by
  rw [total_score_some]
  have hmap : w.map (fun p => scoreAt none none none none none none none p.1 * p.2)
      = w.map (fun p => (1/2 : ℚ) * p.2) := by
    apply List.map_congr_left
    intro p _
    rw [scoreAt_none]
  rw [hmap, sum_map_const_mul, hsum]
  norm_num

theorem composite_neutral_total_witness :
    (MEDITATION_SCORE_WEIGHTS.map Prod.snd).sum = 1 ∧
    (calculate_meditation_score none none none none none none none
      (some MEDITATION_SCORE_WEIGHTS)).total_score = 50 :=
  ⟨by norm_num [MEDITATION_SCORE_WEIGHTS],
   composite_neutral_total MEDITATION_SCORE_WEIGHTS
     (by norm_num [MEDITATION_SCORE_WEIGHTS])⟩

/-- C2: an indicator absent from the input (passed as `None`) contributes the
neutral 0.5 times its weight and is never excluded from the weighted sum: it
appears in the breakdown with score 0.5, the total with weights
`[(A, wa), (B, wb)]` and B missing is `(score_A * wa + 0.5 * wb) * 100`, and
in particular with A = fmtheta at its reference minimum (normalized 0.0) and
weights {A: 0.6, B: 0.4} the total is exactly 20. -/
theorem absent_indicator_neutral :
    (∀ (fm ta fa ab ic hq : Option EV),
        dictLookup Key.spectralEntropy (meditationScores fm none ta fa ab ic hq)
          = some (1/2))
    ∧ (∀ (fm : Option EV) (wa wb : ℚ),
        (calculate_meditation_score fm none none none none none none
          (some [(Key.fmtheta, wa), (Key.spectralEntropy, wb)])).total_score
          = (scoreOf fm 50 200 false * wa + (1/2) * wb) * 100)
    ∧ (calculate_meditation_score (some (EV.fin 50)) none none none none none none
        (some [(Key.fmtheta, 3/5), (Key.spectralEntropy, 2/5)])).total_score = 20 := by
  refine ⟨?_, ?_, ?_⟩
  · intro fm ta fa ab ic hq
    exact dictLookup_meditationScores fm none ta fa ab ic hq Key.spectralEntropy
  · intro fm wa wb
    rw [total_score_some]
    simp only [List.map_cons, List.map_nil, List.sum_cons, List.sum_nil, scoreAt, scoreOf]
    ring
  · rw [total_score_some]
    simp only [List.map_cons, List.map_nil, List.sum_cons, List.sum_nil, scoreAt, scoreOf]
    norm_num [normalizeIndicator, npIsClose, evClip, npClip]
    simp only [reduceCtorEq, if_false]
    norm_num

theorem npIsClose_false_lt {lo hi : ℚ} (hle : lo ≤ hi)
    (hnc : npIsClose hi lo = false) : lo < hi := by
  have h : ¬ (|hi - lo| ≤ 1/100000000 + (1/100000) * |lo|) := by
    simpa [npIsClose] using hnc
  have h2 : 1/100000000 + (1/100000 : ℚ) * |lo| < |hi - lo| := not_le.mp h
  have h3 : (0:ℚ) < |hi - lo| := lt_of_le_of_lt (by positivity) h2
  have h4 : hi - lo ≠ 0 := abs_pos.mp h3
  exact lt_of_le_of_ne hle (fun he => h4 (by rw [he]; ring))

theorem evClip_mem {v : EV} {lo hi : ℚ} (hv : v ≠ EV.nan) (hle : lo ≤ hi) :
    lo ≤ evClip v lo hi ∧ evClip v lo hi ≤ hi := by
  cases v with
  | nan => exact absurd rfl hv
  | pinf => exact ⟨hle, le_refl hi⟩
  | ninf => exact ⟨le_min (le_refl lo) hle, min_le_right lo hi⟩
  | fin q =>
    refine ⟨le_min (le_max_right q lo) hle, min_le_right _ _⟩

theorem normalizeIndicator_bounds (v : EV) (lo hi : ℚ) (rev : Bool)
    (hle : lo ≤ hi) :
    0 ≤ normalizeIndicator v lo hi rev ∧ normalizeIndicator v lo hi rev ≤ 1 := by
  unfold normalizeIndicator
  by_cases hv : v = EV.nan
  · rw [if_pos hv]; norm_num
  · rw [if_neg hv]
    cases hnc : npIsClose hi lo with
    | true =>
      simp only [hnc, if_true]
      cases rev <;> norm_num
    | false =>
      have hlt : lo < hi := npIsClose_false_lt hle hnc
      have hc := evClip_mem hv hle
      simp only [hnc, Bool.false_eq_true, if_false]
      have h0 : 0 ≤ (evClip v lo hi - lo) / (hi - lo) :=
        div_nonneg (by linarith [hc.1]) (by linarith)
      have h1 : (evClip v lo hi - lo) / (hi - lo) ≤ 1 := by
        rw [div_le_one (by linarith)]
        linarith [hc.2]
      cases rev <;> constructor <;> simp <;> linarith

/-- C3 (amended): the normalizer boundary law holds with the degeneracy test
the code actually uses, `np.isclose(max, min)` with numpy default tolerances,
rather than exact equality `max == min`: when the range is NOT within that
tolerance, `_normalize_indicator` maps min to 0 and max to 1 (swapped under
the lower-is-better flag), every raw value is clipped into [min, max] before
rescaling, and every output lies in [0, 1]; whenever `max == min` exactly the
result is 0.5 for every value; a missing (NaN) value maps to 0.5.  (The
original claim fails only for non-degenerate ranges inside the isclose
tolerance, see the counterexample.) -/
theorem normalizer_boundary_law :
    (∀ (lo hi : ℚ) (rev : Bool), lo ≤ hi → npIsClose hi lo = false →
        normalizeIndicator (EV.fin lo) lo hi rev = (if rev then 1 else 0)
      ∧ normalizeIndicator (EV.fin hi) lo hi rev = (if rev then 0 else 1)
      ∧ (∀ q : ℚ, normalizeIndicator (EV.fin q) lo hi rev
            = normalizeIndicator (EV.fin (npClip q lo hi)) lo hi rev)
      ∧ (∀ v : EV, 0 ≤ normalizeIndicator v lo hi rev
            ∧ normalizeIndicator v lo hi rev ≤ 1))
    ∧ (∀ (lo : ℚ) (rev : Bool) (v : EV), normalizeIndicator v lo lo rev = 1/2)
    ∧ (∀ (lo hi : ℚ) (rev : Bool), normalizeIndicator EV.nan lo hi rev = 1/2) := by
  refine ⟨?_, ?_, ?_⟩
  · intro lo hi rev hle hnc
    have hlt : lo < hi := npIsClose_false_lt hle hnc
    have hne : hi - lo ≠ 0 := by intro he; linarith [sub_eq_zero.mp he]
    refine ⟨?_, ?_, ?_, ?_⟩
    · simp only [normalizeIndicator, evClip, npClip, hnc, Bool.false_eq_true,
        if_false, reduceCtorEq, max_self, min_eq_left hle]
      rw [sub_self, zero_div]
      cases rev <;> norm_num
    · simp only [normalizeIndicator, evClip, npClip, hnc, Bool.false_eq_true,
        if_false, reduceCtorEq, max_eq_left hle, min_self]
      rw [div_self hne]
      cases rev <;> norm_num
    · intro q
      have h1 : lo ≤ min (max q lo) hi := le_min (le_max_right q lo) hle
      have h2 : min (max q lo) hi ≤ hi := min_le_right _ _
      have hcc : npClip (npClip q lo hi) lo hi = npClip q lo hi := by
        unfold npClip
        rw [max_eq_left h1, min_eq_left h2]
      simp only [normalizeIndicator, evClip, hcc, reduceCtorEq, if_false]
    · intro v
      exact normalizeIndicator_bounds v lo hi rev hle
  · intro lo rev v
    unfold normalizeIndicator
    by_cases hv : v = EV.nan
    · rw [if_pos hv]
    · rw [if_neg hv]
      have hcl : npIsClose lo lo = true := by
        simp only [npIsClose, sub_self, abs_zero, decide_eq_true_eq]
        positivity
      simp only [hcl, if_true]
      cases rev <;> norm_num
  · intro lo hi rev
    rfl

/-- C3 counterexample: for the non-degenerate reference range (0, 1e-9) the
claim demands `Normalizer(max) = 1.0`, but the code's `np.isclose(max, min)`
test (default tolerances) classifies the range as degenerate and returns 0.5
for the raw value `max`. -/
theorem normalizer_boundary_cex :
    normalizeIndicator (EV.fin (1/1000000000)) 0 (1/1000000000) false = 1/2
    ∧ ((1:ℚ)/2) ≠ 1 ∧ (0:ℚ) ≠ 1/1000000000 := by
  refine ⟨?_, by norm_num, by norm_num⟩
  norm_num [normalizeIndicator, npIsClose, evClip, npClip, abs_le]

theorem normalizer_boundary_law_witness :
    (50:ℚ) ≤ 200 ∧ npIsClose 200 50 = false
    ∧ normalizeIndicator (EV.fin 50) 50 200 false = 0
    ∧ normalizeIndicator (EV.fin 200) 50 200 false = 1 := by
  have hle : (50:ℚ) ≤ 200 := by norm_num
  have hnc : npIsClose 200 50 = false := by
    norm_num [npIsClose, abs_le]
  have h := normalizer_boundary_law.1 50 200 false hle hnc
  exact ⟨hle, hnc, by simpa using h.1, by simpa using h.2.1⟩

theorem scoreOf_bounds (x : Option EV) (lo hi : ℚ) (rev : Bool) (hle : lo ≤ hi) :
    0 ≤ scoreOf x lo hi rev ∧ scoreOf x lo hi rev ≤ 1 := by
  cases x with
  | none => norm_num [scoreOf]
  | some v => exact normalizeIndicator_bounds v lo hi rev hle

theorem scoreAt_bounds (fm se ta fa ab ic hq : Option EV) (k : Key) :
    0 ≤ scoreAt fm se ta fa ab ic hq k ∧ scoreAt fm se ta fa ab ic hq k ≤ 1 := by
  cases k <;> exact scoreOf_bounds _ _ _ _ (by norm_num)

theorem weighted_sum_bounds (f : Key → ℚ) (hf : ∀ k, 0 ≤ f k ∧ f k ≤ 1) :
    ∀ (w : List (Key × ℚ)), (∀ p ∈ w, 0 ≤ p.2) →
      0 ≤ (w.map (fun p => f p.1 * p.2)).sum
      ∧ (w.map (fun p => f p.1 * p.2)).sum ≤ (w.map Prod.snd).sum := by
  intro w
  induction w with
  | nil => simp
  | cons a l ih =>
    intro hw
    have ha : 0 ≤ a.2 := hw a (List.mem_cons_self a l)
    have hl := ih (fun p hp => hw p (List.mem_cons_of_mem a hp))
    have hterm0 : 0 ≤ f a.1 * a.2 := mul_nonneg (hf a.1).1 ha
    have hterm1 : f a.1 * a.2 ≤ a.2 := mul_le_of_le_one_left ha (hf a.1).2
    simp only [List.map_cons, List.sum_cons]
    constructor <;> linarith [hl.1, hl.2]

/-- C10: for every combination of indicator inputs, including missing (None),
NaN and infinite values, the composite scorer returns a breakdown containing
all seven indicator keys with each per-indicator score in [0, 1], and for any
non-negative weight map summing to 1 the total score is a well-defined
rational in [0, 100] (every operation of the embedding is total, mirroring
the fact that the Python code never produces NaN here: NaN inputs are
replaced by 0.5 before any arithmetic and infinities are clipped into the
finite reference range). -/
theorem composite_score_bounds (fm se ta fa ab ic hq : Option EV)
    (w : List (Key × ℚ)) (hw : ∀ p ∈ w, 0 ≤ p.2)
    (hsum : (w.map Prod.snd).sum = 1) :
    ((meditationScores fm se ta fa ab ic hq).map Prod.fst
        = [Key.fmtheta, Key.spectralEntropy, Key.thetaAlpha, Key.faa,
           Key.alphaBeta, Key.iafStability, Key.quality])
    ∧ (∀ p ∈ meditationScores fm se ta fa ab ic hq, 0 ≤ p.2 ∧ p.2 ≤ 1)
    ∧ 0 ≤ (calculate_meditation_score fm se ta fa ab ic hq (some w)).total_score
    ∧ (calculate_meditation_score fm se ta fa ab ic hq (some w)).total_score ≤ 100 := by
  refine ⟨by simp [meditationScores], ?_, ?_, ?_⟩
  · intro p hp
    simp only [meditationScores, List.mem_cons, List.not_mem_nil, or_false] at hp
    rcases hp with h | h | h | h | h | h | h <;> subst h <;>
      exact scoreOf_bounds _ _ _ _ (by norm_num)
  · rw [total_score_some]
    have h := weighted_sum_bounds (scoreAt fm se ta fa ab ic hq)
      (scoreAt_bounds fm se ta fa ab ic hq) w hw
    linarith [h.1]
  · rw [total_score_some]
    have h := weighted_sum_bounds (scoreAt fm se ta fa ab ic hq)
      (scoreAt_bounds fm se ta fa ab ic hq) w hw
    rw [hsum] at h
    linarith [h.2]

theorem composite_score_bounds_witness :
    (∀ p ∈ MEDITATION_SCORE_WEIGHTS, 0 ≤ p.2)
    ∧ (MEDITATION_SCORE_WEIGHTS.map Prod.snd).sum = 1
    ∧ 0 ≤ (calculate_meditation_score (some EV.nan) (some EV.pinf)
        (some EV.ninf) none (some (EV.fin 3)) (some EV.nan) (some EV.pinf)
        (some MEDITATION_SCORE_WEIGHTS)).total_score
    ∧ (calculate_meditation_score (some EV.nan) (some EV.pinf)
        (some EV.ninf) none (some (EV.fin 3)) (some EV.nan) (some EV.pinf)
        (some MEDITATION_SCORE_WEIGHTS)).total_score ≤ 100 := by
  have hw : ∀ p ∈ MEDITATION_SCORE_WEIGHTS, 0 ≤ p.2 := by
    intro p hp
    fin_cases hp <;> norm_num
  have hsum : (MEDITATION_SCORE_WEIGHTS.map Prod.snd).sum = 1 := by
    norm_num [MEDITATION_SCORE_WEIGHTS]
  have h := composite_score_bounds (some EV.nan) (some EV.pinf) (some EV.ninf)
    none (some (EV.fin 3)) (some EV.nan) (some EV.pinf)
    MEDITATION_SCORE_WEIGHTS hw hsum
  exact ⟨hw, hsum, h.2.2.1, h.2.2.2⟩

theorem segmentStartsFrom_eq (E δ : ℚ) (hd : 0 < δ) :
    ∀ (N : ℕ) (c : ℚ), (⌈(E - c) / δ⌉).toNat = N →
      segmentStartsFrom E δ hd c = (List.range N).map (fun k : ℕ => c + (k : ℚ) * δ) := by
  intro N
  induction N with
  | zero =>
    intro c hN
    have h2 : ¬ c < E := by
      intro hc
      have hp : 0 < (E - c) / δ := div_pos (by linarith) hd
      have := Int.ceil_pos.mpr hp
      omega
    rw [segmentStartsFrom, if_neg h2]
    simp
  | succ N ih =>
    intro c hN
    have hpos : 0 < ⌈(E - c) / δ⌉ := by omega
    have h1 : 0 < (E - c) / δ := Int.ceil_pos.mp hpos
    have hc : c < E := by
      rcases div_pos_iff.mp h1 with ⟨ha, _⟩ | ⟨_, hb⟩
      · linarith
      · linarith
    have hstep : (⌈(E - (c + δ)) / δ⌉).toNat = N := by
      have h2 : (E - (c + δ)) / δ = (E - c) / δ - 1 := by
        field_simp
        ring
      have h3 : ⌈(E - (c + δ)) / δ⌉ = ⌈(E - c) / δ⌉ - 1 := by
        rw [h2, Int.ceil_sub_one]
      omega
    rw [segmentStartsFrom, if_pos hc, ih (c + δ) hstep, List.range_succ_eq_map]
    simp only [List.map_cons, List.map_map]
    congr 1
    · norm_num
    · apply List.map_congr_left
      intro k _
      simp only [Function.comp_apply]
      push_cast
      ring

theorem enumFrom_map_range (δ : ℚ) :
    ∀ (N j : ℕ) (g : ℕ → ℚ),
      (List.enumFrom j ((List.range N).map g)).map
          (fun p => Segment.mk p.1 p.2 (p.2 + δ))
        = (List.range N).map (fun k => Segment.mk (j + k) (g k) (g k + δ)) := by
  intro N
  induction N with
  | zero => intro j g; rfl
  | succ N ih =>
    intro j g
    rw [List.range_succ_eq_map]
    simp only [List.map_cons, List.map_map, List.enumFrom]
    rw [ih (j + 1) (g ∘ Nat.succ)]
    congr 1
    simp only [List.map_inj_left, Function.comp_apply, Nat.succ_eq_add_one,
      Segment.mk.injEq, List.mem_range]
    intro a ha
    simp only [and_true]
    omega

/-- C5 (amended): in the DataFrame-based segmentation path, the segments
start at `session_start + warmup` and step by exactly one nominal duration;
the half-open windows are contiguous (each stop is the next start), pairwise
disjoint, and cover `[session_start + warmup, session_end)`; the indices are
the consecutive integers from 1; and the LAST segment is NOT clipped: its end
is `last_start + segment_minutes`, which is at least `session_end` and equals
it only when the post-warm-up duration is an exact multiple of the nominal
duration (see the counterexample for strict overshoot). -/
theorem segment_coverage
    (timestamps : List ℚ) (segMin warm : ℚ) (segs : List Segment)
    (hok : segmentAnalysis timestamps segMin warm = Except.ok segs) :
    segs ≠ []
    ∧ (∀ sg ∈ segs, sg.stop = sg.start + segMin
        ∧ 1 ≤ sg.idx ∧ sg.idx ≤ segs.length
        ∧ sg.start = ((List.insertionSort (· ≤ ·) timestamps).headD 0 + warm)
            + ((sg.idx : ℚ) - 1) * segMin)
    ∧ (∀ i : ℕ, 1 ≤ i → i ≤ segs.length → ∃ sg ∈ segs, sg.idx = i)
    ∧ (∀ x : ℚ, (List.insertionSort (· ≤ ·) timestamps).headD 0 + warm ≤ x →
        x < (List.insertionSort (· ≤ ·) timestamps).getLastD 0 →
        ∃ sg ∈ segs, sg.start ≤ x ∧ x < sg.stop)
    ∧ (∀ sg1 ∈ segs, ∀ sg2 ∈ segs, sg1.idx ≠ sg2.idx →
        sg1.stop ≤ sg2.start ∨ sg2.stop ≤ sg1.start)
    ∧ (∃ sg ∈ segs, sg.idx = segs.length
        ∧ (List.insertionSort (· ≤ ·) timestamps).getLastD 0 ≤ sg.stop) := by
  simp only [segmentAnalysis] at hok
  split at hok
  · exact absurd hok (by simp)
  rename_i hpos
  split at hok
  · exact absurd hok (by simp)
  rename_i hts
  split at hok
  · exact absurd hok (by simp)
  rename_i hfil
  rw [Except.ok.injEq] at hok
  have hd : 0 < segMin := not_le.mp hpos
  set S : ℚ := (List.insertionSort (· ≤ ·) timestamps).headD 0 + warm with hS
  set E : ℚ := (List.insertionSort (· ≤ ·) timestamps).getLastD 0 with hE
  set n : ℕ := (⌈(E - S) / segMin⌉).toNat with hn
  set N : ℕ := max n 1 with hN
  have hstarts :
      (if segmentStartsFrom E segMin (not_le.mp hpos) S = []
        then [S] else segmentStartsFrom E segMin (not_le.mp hpos) S)
      = (List.range N).map (fun k : ℕ => S + (k : ℚ) * segMin) := by
    rw [segmentStartsFrom_eq E segMin (not_le.mp hpos) n S hn.symm]
    match hcase : n with
    | 0 =>
      simp only [List.range_zero, List.map_nil]
      simp only [if_true]
      have hone : N = 1 := by omega
      rw [hone]
      simp [List.range_succ]
    | Nat.succ m =>
      have hne : (List.range (Nat.succ m)).map (fun k : ℕ => S + (k : ℚ) * segMin) ≠ [] := by
        simp [List.range_succ]
      rw [if_neg hne]
      have hsm : N = Nat.succ m := by omega
      rw [hsm]
  rw [hstarts] at hok
  rw [enumFrom_map_range segMin N 1 (fun k : ℕ => S + (k : ℚ) * segMin)] at hok
  have gsegs : segs = (List.range N).map
      (fun k : ℕ => Segment.mk (1 + k) (S + (k : ℚ) * segMin)
        (S + (k : ℚ) * segMin + segMin)) :=
    hok.symm
  have hlen : segs.length = N := by rw [gsegs]; simp
  have hmem : ∀ sg : Segment, sg ∈ segs ↔
      ∃ k : ℕ, k < N ∧ sg = Segment.mk (1 + k) (S + (k : ℚ) * segMin)
        (S + (k : ℚ) * segMin + segMin) := by
    intro sg
    rw [gsegs]
    simp only [List.mem_map, List.mem_range]
    constructor
    · rintro ⟨k, hk, rfl⟩; exact ⟨k, hk, rfl⟩
    · rintro ⟨k, hk, rfl⟩; exact ⟨k, hk, rfl⟩
  have hN1 : 1 ≤ N := by omega
  refine ⟨?_, ?_, ?_, ?_, ?_, ?_⟩
  · intro hnil
    rw [hnil] at hlen
    simp at hlen
    omega
  · intro sg hsg
    obtain ⟨k, hk, rfl⟩ := (hmem sg).mp hsg
    dsimp only
    refine ⟨rfl, by omega, ?_, ?_⟩
    · rw [hlen]
      omega
    · push_cast
      ring
  · intro i h1 hi
    rw [hlen] at hi
    refine ⟨Segment.mk (1 + (i - 1)) (S + ((i - 1 : ℕ) : ℚ) * segMin)
      (S + ((i - 1 : ℕ) : ℚ) * segMin + segMin),
      (hmem _).mpr ⟨i - 1, by omega, rfl⟩, ?_⟩
    dsimp only
    omega
  · intro x hx1 hx2
    have hk0 : (0 : ℤ) ≤ ⌊(x - S) / segMin⌋ :=
      Int.floor_nonneg.mpr (div_nonneg (by linarith) (le_of_lt hd))
    set k : ℕ := (⌊(x - S) / segMin⌋).toNat with hk
    have hcast : (k : ℚ) = ((⌊(x - S) / segMin⌋ : ℤ) : ℚ) := by
      rw [hk]
      exact_mod_cast congrArg (fun z : ℤ => (z : ℚ)) (Int.toNat_of_nonneg hk0)
    have hle1 : S + (k : ℚ) * segMin ≤ x := by
      have h := Int.floor_le ((x - S) / segMin)
      rw [← hcast] at h
      have h2 := (le_div_iff₀ hd).mp h
      linarith
    have hlt1 : x < S + ((k : ℚ) + 1) * segMin := by
      have h := Int.lt_floor_add_one ((x - S) / segMin)
      rw [← hcast] at h
      have h2 := (div_lt_iff₀ hd).mp h
      linarith
    have hkN : k < N := by
      have hlt2 : (x - S) / segMin < (E - S) / segMin :=
        (div_lt_div_iff_of_pos_right hd).mpr (by linarith)
      have hfloor_le : ((⌊(x - S) / segMin⌋ : ℤ) : ℚ) ≤ (x - S) / segMin :=
        Int.floor_le _
      have hlt3 : ((⌊(x - S) / segMin⌋ : ℤ) : ℚ) < (E - S) / segMin :=
        lt_of_le_of_lt hfloor_le hlt2
      have hceil_gt : ⌊(x - S) / segMin⌋ < ⌈(E - S) / segMin⌉ :=
        Int.lt_ceil.mpr hlt3
      omega
    refine ⟨Segment.mk (1 + k) (S + (k : ℚ) * segMin) (S + (k : ℚ) * segMin + segMin),
      (hmem _).mpr ⟨k, hkN, rfl⟩, ?_, ?_⟩
    · dsimp only
      exact hle1
    · dsimp only
      linarith
  · intro sg1 h1 sg2 h2 hne
    obtain ⟨k1, hk1, rfl⟩ := (hmem sg1).mp h1
    obtain ⟨k2, hk2, rfl⟩ := (hmem sg2).mp h2
    have hkk : k1 ≠ k2 := by
      intro he; exact hne (by rw [he])
    dsimp only
    rcases Nat.lt_or_ge k1 k2 with h | h
    · left
      have hc : ((k1 : ℚ) + 1) ≤ (k2 : ℚ) := by exact_mod_cast h
      nlinarith
    · right
      have hkk2 : k2 < k1 := by omega
      have hc : ((k2 : ℚ) + 1) ≤ (k1 : ℚ) := by exact_mod_cast hkk2
      nlinarith
  · refine ⟨Segment.mk (1 + (N - 1)) (S + ((N - 1 : ℕ) : ℚ) * segMin)
      (S + ((N - 1 : ℕ) : ℚ) * segMin + segMin),
      (hmem _).mpr ⟨N - 1, by omega, rfl⟩, ?_, ?_⟩
    · dsimp only
      rw [hlen]
      omega
    · dsimp only
      have hcast : ((N - 1 : ℕ) : ℚ) = (N : ℚ) - 1 := by
        push_cast [Nat.cast_sub hN1]
        ring
      rw [hcast]
      match hcase : n with
      | 0 =>
        have hES : E - S ≤ 0 := by
          by_contra hgt
          push_neg at hgt
          have hp : 0 < (E - S) / segMin := div_pos hgt hd
          have := Int.ceil_pos.mpr hp
          omega
        have hone : N = 1 := by omega
        rw [hone]
        push_cast
        linarith
      | Nat.succ m =>
        have hceil : ⌈(E - S) / segMin⌉ = ((Nat.succ m : ℕ) : ℤ) := by omega
        have hle : (E - S) / segMin ≤ (((Nat.succ m : ℕ) : ℤ) : ℚ) := by
          rw [← hceil]
          exact Int.le_ceil _
        have hNn : N = Nat.succ m := by omega
        have h2 := (div_le_iff₀ hd).mp hle
        rw [hNn]
        push_cast at h2 ⊢
        linarith

theorem segmentStartsFrom_step (E δ : ℚ) (hd : 0 < δ) (c : ℚ) :
    segmentStartsFrom E δ hd c
      = if c < E then c :: segmentStartsFrom E δ hd (c + δ) else [] := by
  rw [segmentStartsFrom]

/-- C5 counterexample: for a session over `[0, 7]` minutes with no warm-up
and 5-minute segments, the recorded segments are `[0,5)` and `[5,10)`: the
last segment's end is 10, not the session end 7 — the final window is NOT
clipped to `session_end` as the claim states. -/
theorem segment_clip_cex :
    segmentAnalysis [0, 7] 5 0 = Except.ok [Segment.mk 1 0 5, Segment.mk 2 5 10]
    ∧ ((10 : ℚ) ≠ 7) := by
  refine ⟨?_, by norm_num⟩
  have h05 : ¬ (5:ℚ) ≤ 0 := by norm_num
  simp only [segmentAnalysis]
  rw [dif_neg h05]
  have hsort : List.insertionSort (· ≤ ·) ([0, 7] : List ℚ) = [0, 7] := by
    norm_num [List.insertionSort, List.orderedInsert]
  rw [hsort]
  simp only [List.headD, List.getLastD]
  norm_num [List.filter]
  have hnil : ¬ (([0, 7] : List ℚ) = []) := by simp
  rw [if_neg hnil, if_neg hnil]
  have hs : ∀ hd : (0:ℚ) < 5, segmentStartsFrom 7 5 hd 0 = [0, 5] := by
    intro hd
    rw [segmentStartsFrom_step, if_pos (by norm_num : (0:ℚ) < 7)]
    rw [segmentStartsFrom_step, if_pos (by norm_num : (0:ℚ) + 5 < 7)]
    rw [segmentStartsFrom_step, if_neg (by norm_num : ¬ ((0:ℚ) + 5 + 5 < 7))]
    norm_num
  rw [hs]
  norm_num [List.enumFrom]

theorem segment_coverage_witness :
    [Segment.mk 1 0 5, Segment.mk 2 5 10] ≠ ([] : List Segment) :=
  (segment_coverage [0, 7] 5 0 [Segment.mk 1 0 5, Segment.mk 2 5 10]
    (by
      have h05 : ¬ (5:ℚ) ≤ 0 := by norm_num
      simp only [segmentAnalysis]
      rw [dif_neg h05]
      have hsort : List.insertionSort (· ≤ ·) ([0, 7] : List ℚ) = [0, 7] := by
        norm_num [List.insertionSort, List.orderedInsert]
      rw [hsort]
      simp only [List.headD, List.getLastD]
      norm_num [List.filter]
      have hnil : ¬ (([0, 7] : List ℚ) = []) := by simp
      rw [if_neg hnil, if_neg hnil]
      have hs : ∀ hd : (0:ℚ) < 5, segmentStartsFrom 7 5 hd 0 = [0, 5] := by
        intro hd
        rw [segmentStartsFrom_step, if_pos (by norm_num : (0:ℚ) < 7)]
        rw [segmentStartsFrom_step, if_pos (by norm_num : (0:ℚ) + 5 < 7)]
        rw [segmentStartsFrom_step, if_neg (by norm_num : ¬ ((0:ℚ) + 5 + 5 < 7))]
        norm_num
      rw [hs]
      norm_num [List.enumFrom])).1

theorem sorted_le_getLastD :
    ∀ (l : List ℚ), l.Sorted (· ≤ ·) → ∀ x ∈ l, x ≤ l.getLastD 0 := by
  intro l
  induction l with
  | nil => intro _ x hx; simp at hx
  | cons a t ih =>
    intro hs x hx
    have hs' := List.sorted_cons.mp hs
    rcases List.mem_cons.mp hx with rfl | hxt
    · cases t with
      | nil => simp
      | cons b t2 =>
        have h1 : x ≤ b := hs'.1 b (List.mem_cons_self b t2)
        have h2 := ih hs'.2 b (List.mem_cons_self b t2)
        calc x ≤ b := h1
          _ ≤ (b :: t2).getLastD 0 := h2
    · cases t with
      | nil => simp at hxt
      | cons b t2 =>
        exact ih hs'.2 x hxt

/-- C6 (amended): the session-too-short error fires when the warm-up
STRICTLY exceeds the session duration in the DataFrame-based segmentation
path (before any segment is produced — an error result carries no partial
table), and when the warm-up is greater than OR EQUAL to the data length in
the epochs-based paths (create_statistical_dataframe and
_calculate_band_power_from_epochs); at exact equality the DataFrame-based
path instead returns a single degenerate segment (see the counterexample). -/
theorem warmup_errors :
    (∀ (ts : List ℚ) (segMin warm : ℚ),
        ts ≠ [] → 0 < segMin →
        (List.insertionSort (· ≤ ·) ts).getLastD 0
          < (List.insertionSort (· ≤ ·) ts).headD 0 + warm →
        segmentAnalysis ts segMin warm = Except.error "no data after warmup")
    ∧ (∀ dataSeconds warm : ℚ, dataSeconds ≤ warm * 60 →
        statWarmupGuard dataSeconds warm = Except.error "warmup exceeds data length") := by
  constructor
  · intro ts segMin warm hne hpos hlt
    have hpos' : ¬ segMin ≤ 0 := not_le.mpr hpos
    simp only [segmentAnalysis]
    rw [dif_neg hpos']
    have hts : List.insertionSort (· ≤ ·) ts ≠ [] := by
      intro h
      apply hne
      have hlen := congrArg List.length h
      simp only [List.length_insertionSort, List.length_nil] at hlen
      exact List.eq_nil_of_length_eq_zero hlen
    rw [if_neg hts]
    have hfil : List.filter
        (fun t => decide ((List.insertionSort (· ≤ ·) ts).headD 0 + warm ≤ t))
        (List.insertionSort (· ≤ ·) ts) = [] := by
      rw [List.filter_eq_nil_iff]
      intro a ha
      have hle := sorted_le_getLastD _ (List.sorted_insertionSort _ ts) a ha
      simp only [decide_eq_true_eq]
      linarith
    rw [if_pos hfil]
  · intro dataSeconds warm h
    simp only [statWarmupGuard]
    rw [if_pos h]

theorem warmup_errors_witness :
    segmentAnalysis [0, 3] 5 5 = Except.error "no data after warmup"
    ∧ statWarmupGuard 300 5 = Except.error "warmup exceeds data length" := by
  constructor
  · apply warmup_errors.1 [0, 3] 5 5 (by simp) (by norm_num)
    norm_num [List.insertionSort, List.orderedInsert, List.headD, List.getLastD]
  · exact warmup_errors.2 300 5 (by norm_num)

/-- C6 counterexample: for a session over `[0, 5]` minutes — duration exactly
EQUAL to the 5-minute warm-up — the DataFrame-based path does not raise: the
fallback `if not segment_starts: segment_starts = [session_start]` produces a
single degenerate segment `[5, 10)`, so a table IS returned. -/
theorem warmup_equal_cex :
    segmentAnalysis [0, 5] 5 5 = Except.ok [Segment.mk 1 5 10] := by
  have h05 : ¬ (5:ℚ) ≤ 0 := by norm_num
  simp only [segmentAnalysis]
  rw [dif_neg h05]
  have hsort : List.insertionSort (· ≤ ·) ([0, 5] : List ℚ) = [0, 5] := by
    norm_num [List.insertionSort, List.orderedInsert]
  rw [hsort]
  have hhead : List.headD ([0, 5] : List ℚ) 0 = 0 := rfl
  have hlast : List.getLastD ([0, 5] : List ℚ) 0 = 5 := rfl
  rw [hhead, hlast]
  rw [if_neg (show ¬ (([0, 5] : List ℚ) = []) by simp)]
  have hfil : List.filter (fun t => decide ((0:ℚ) + 5 ≤ t)) [0, 5] = [5] := by
    norm_num [List.filter]
  rw [hfil]
  rw [if_neg (show ¬ (([5] : List ℚ) = []) by simp)]
  have hs : ∀ hd : (0:ℚ) < 5, segmentStartsFrom 5 5 hd (0 + 5) = [] := by
    intro hd
    rw [segmentStartsFrom_step, if_neg (by norm_num : ¬ ((0:ℚ) + 5 < 5))]
  rw [hs]
  norm_num [List.enumFrom]

/-- C7 (amended): the two-tier robust-statistics policy (drop NaN; z-filter
only when more than 3 finite values remain, with fallback to unfiltered
statistics when the filter empties the series) holds for the Fmθ per-segment
mean in calculate_segment_analysis and for the band-power/ratio statistics in
create_statistical_dataframe; the z-filter keeps exactly the values with
`(x - mean)^2 < 9 * variance` (i.e. `|z| < 3`, every value being dropped when
the variance is 0 since every z-score is then NaN); but calculate_band_ratios
in ratios.py applies the z-filter WHENEVER at least one value is present,
without the more-than-3 guard (see the counterexample). -/
theorem robust_stats_policy :
    (∀ xs : List (Option ℚ), (dropna xs).length ≤ 3 →
        fmSegmentMean xs = listMean (dropna xs))
    ∧ (∀ xs : List (Option ℚ), 3 < (dropna xs).length →
        zscoreFilter (dropna xs) ≠ [] →
        fmSegmentMean xs = listMean (zscoreFilter (dropna xs)))
    ∧ (∀ xs : List (Option ℚ), 3 < (dropna xs).length →
        zscoreFilter (dropna xs) = [] →
        fmSegmentMean xs = listMean (dropna xs))
    ∧ (∀ values : List ℚ, values.length ≤ 3 → statOutlierValues values = values)
    ∧ (∀ values : List ℚ, 3 < values.length → zscoreFilter values ≠ [] →
        statOutlierValues values = zscoreFilter values)
    ∧ (∀ values : List ℚ, 3 < values.length → zscoreFilter values = [] →
        statOutlierValues values = values)
    ∧ (∀ (xs : List ℚ) (x : ℚ), x ∈ zscoreFilter xs ↔
        (x ∈ xs ∧ popVar xs ≠ 0 ∧ (x - pMean xs)^2 < 9 * popVar xs))
    ∧ (∀ values : List ℚ, values ≠ [] →
        ratiosStatsValues values
          = if 0 < (zscoreFilter values).length
            then some (zscoreFilter values) else none) := by
  refine ⟨?_, ?_, ?_, ?_, ?_, ?_, ?_, ?_⟩
  · intro xs h
    simp only [fmSegmentMean, if_neg (not_lt.mpr h)]
    by_cases he : dropna xs = []
    · rw [if_neg (by simp [he]), listMean, if_pos he]
    · rw [if_pos (by simpa [List.length_pos] using he)]
  · intro xs h hf
    simp only [fmSegmentMean, if_pos h]
    rw [if_pos (by simpa [List.length_pos] using hf)]
  · intro xs h hf
    simp only [fmSegmentMean, if_pos h, hf]
    simp
  · intro values h
    simp only [statOutlierValues, if_neg (not_lt.mpr h)]
  · intro values h hf
    simp only [statOutlierValues, if_pos h]
    rw [if_pos (by simpa [List.length_pos] using hf)]
  · intro values h hf
    simp only [statOutlierValues, if_pos h, hf]
    simp
  · intro xs x
    simp only [zscoreFilter]
    by_cases hv : popVar xs = 0
    · simp [hv]
    · simp [hv, List.mem_filter]
  · intro values hne
    simp only [ratiosStatsValues, if_neg hne]

/-- C7 counterexample: for the single-value series `[5]` the claim demands
no outlier rejection and the raw statistics (mean 5); but
calculate_band_ratios applies the z-filter anyway, the z-score of a single
value is NaN (std = 0), every value is dropped, and the reported mean is NaN
instead of 5.  (The raw mean of `[5]` is `some 5`.) -/
theorem robust_stats_cex :
    ratiosStatsMean [5] = none ∧ listMean [5] = some 5 := by
  constructor
  · have hv : popVar [(5:ℚ)] = 0 := by
      norm_num [popVar, pMean]
    simp [ratiosStatsMean, ratiosStatsValues, zscoreFilter, hv]
  · norm_num [listMean]

theorem robust_stats_policy_witness :
    (dropna [some (5:ℚ)]).length ≤ 3
    ∧ fmSegmentMean [some (5:ℚ)] = listMean (dropna [some (5:ℚ)]) :=
  ⟨by simp [dropna], robust_stats_policy.1 [some (5:ℚ)] (by simp [dropna])⟩

/-- C8 (amended): the epochs-based spectral paths
(create_statistical_dataframe and _calculate_band_power_from_epochs) cap the
upper analysis frequency at `min(50, 0.95 * nyquist)`, hence never above 95%
of the Nyquist frequency; but calculate_psd in frequency.py instead caps at
`min(requested, max(nyquist - 1e-6, 0.9 * nyquist))`, which stays strictly
below Nyquist but CAN exceed 95% of it (see the counterexample). -/
theorem fmax_caps (sfreq fmax : ℚ) (h : 0 < sfreq) :
    epochsFmax sfreq ≤ (19/20) * (sfreq / 2)
    ∧ psdFmax sfreq fmax < sfreq / 2 := by
  constructor
  · unfold epochsFmax
    rw [mul_comm]
    exact min_le_right _ _
  · unfold psdFmax
    apply lt_of_le_of_lt (min_le_right _ _)
    apply max_lt
    · norm_num
    · nlinarith

/-- C8 counterexample: at sampling rate 100 Hz with requested fmax 50 Hz,
calculate_psd analyses up to `50 - 1e-6 = 49.999999` Hz, which exceeds 95% of
the Nyquist frequency (`0.95 * 50 = 47.5` Hz) — so the 95%-of-Nyquist cap
claimed for "the spectral estimator" does not hold for calculate_psd. -/
theorem fmax_caps_cex :
    psdFmax 100 50 = 49999999/1000000
    ∧ (19/20) * ((100:ℚ)/2) < psdFmax 100 50 := by
  constructor <;> norm_num [psdFmax]

theorem fmax_caps_witness :
    epochsFmax 256 ≤ (19/20) * ((256:ℚ) / 2)
    ∧ psdFmax 256 50 < (256:ℚ) / 2 :=
  fmax_caps 256 50 (by norm_num)

/-- C9: the envelope clipping step bounds the series by the 90th percentile
of the pre-clip series above and by 0 below without discarding any sample
(the length is preserved); every post-clip value is at most that percentile
and is nonnegative unless it IS the (negative) percentile bound; and whenever
some sample exceeds the percentile (e.g. an injected spike), the post-clip
maximum equals exactly the 90th-percentile value of the pre-clip series, not
the spike. -/
theorem envelope_clip_law (xs : List ℚ)
    (hspike : ∃ x ∈ xs, pandasQuantile xs (9/10) < x) :
    (envelopeClip xs).length = xs.length
    ∧ (∀ y ∈ envelopeClip xs, y ≤ pandasQuantile xs (9/10)
        ∧ (0 ≤ y ∨ y = pandasQuantile xs (9/10)))
    ∧ (envelopeClip xs).maximum = (pandasQuantile xs (9/10) : WithBot ℚ) := by
  obtain ⟨x0, hx0, hspike0⟩ := hspike
  refine ⟨by simp [envelopeClip], ?_, ?_⟩
  · intro y hy
    simp only [envelopeClip, List.mem_map] at hy
    obtain ⟨x, _, rfl⟩ := hy
    refine ⟨min_le_right _ _, ?_⟩
    rcases min_cases (max x 0) (pandasQuantile xs (9/10)) with ⟨he, _⟩ | ⟨he, _⟩
    · left
      rw [npClip, he]
      exact le_max_right x 0
    · right
      rw [npClip, he]
  · rw [List.maximum_eq_coe_iff]
    constructor
    · simp only [envelopeClip, List.mem_map]
      refine ⟨x0, hx0, ?_⟩
      rw [npClip]
      have h1 : pandasQuantile xs (9/10) ≤ max x0 0 :=
        le_trans (le_of_lt hspike0) (le_max_left x0 0)
      exact min_eq_right h1
    · intro a ha
      simp only [envelopeClip, List.mem_map] at ha
      obtain ⟨x, _, rfl⟩ := ha
      exact min_le_right _ _

theorem envelope_clip_law_witness :
    (envelopeClip [1, 1, 1, 1, 1, 1, 1, 1, 1, 1, 100]).length
      = ([1, 1, 1, 1, 1, 1, 1, 1, 1, 1, 100] : List ℚ).length
    ∧ (envelopeClip [1, 1, 1, 1, 1, 1, 1, 1, 1, 1, 100]).maximum
      = (pandasQuantile [1, 1, 1, 1, 1, 1, 1, 1, 1, 1, 100] (9/10) : WithBot ℚ) := by
  have hq : pandasQuantile [1, 1, 1, 1, 1, 1, 1, 1, 1, 1, 100] (9/10) = 1 := by
    have hsort : List.insertionSort (· ≤ ·)
        ([1, 1, 1, 1, 1, 1, 1, 1, 1, 1, 100] : List ℚ)
        = [1, 1, 1, 1, 1, 1, 1, 1, 1, 1, 100] := by
      norm_num [List.insertionSort, List.orderedInsert]
    simp only [pandasQuantile, hsort]
    norm_num [List.getD, Int.toNat_ofNat]
    rfl
  have h := envelope_clip_law [1, 1, 1, 1, 1, 1, 1, 1, 1, 1, 100]
    ⟨100, by norm_num, by rw [hq]; norm_num⟩
  exact ⟨h.1, h.2.2⟩

/-- C4: missing-operand propagation for band ratios.  In
calculate_segment_analysis the theta/alpha and alpha/beta ratios are NaN
unless BOTH band means are present, and the linear alpha/beta value is NaN
exactly when the log value is; in create_statistical_dataframe the Bels
difference propagates NaN from either operand and `10 **` propagates it to
the linear column; when both operands are present the log ratio is their
difference.  Missing propagates as missing, never as a number or zero. -/
theorem ratio_missing_propagation :
    (∀ t a : Option ℚ, thetaAlphaLogOf none t = none ∧ thetaAlphaLogOf a none = none)
    ∧ (∀ b a : Option ℚ, alphaBetaLogOf none b = none ∧ alphaBetaLogOf a none = none
        ∧ alphaBetaLinOf none b = none ∧ alphaBetaLinOf a none = none)
    ∧ (∀ b a : Option ℚ, belsDiff none b = none ∧ belsDiff a none = none
        ∧ linearFromBels (belsDiff none b) = none
        ∧ linearFromBels (belsDiff a none) = none)
    ∧ (∀ a b : ℚ, thetaAlphaLogOf (some a) (some b) = some (b - a)
        ∧ alphaBetaLogOf (some a) (some b) = some (a - b)
        ∧ belsDiff (some a) (some b) = some (a - b)
        ∧ alphaBetaLinOf (some a) (some b) = some (tenPow (a - b))
        ∧ linearFromBels (belsDiff (some a) (some b)) = some (tenPow (a - b))) := by
  refine ⟨?_, ?_, ?_, ?_⟩
  · intro t a
    exact ⟨rfl, by cases a <;> rfl⟩
  · intro b a
    refine ⟨rfl, by cases a <;> rfl, rfl, ?_⟩
    cases a <;> rfl
  · intro b a
    refine ⟨rfl, by cases a <;> rfl, rfl, ?_⟩
    cases a <;> rfl
  · intro a b
    exact ⟨rfl, rfl, rfl, rfl, rfl⟩

end Titan2
